import Mathlib

/-!
Shallow embedding of the Mapsforge `.map` header/tag decoder
(`MapFileReader` in `extract_tags.py`).

The byte stream is modelled as an immutable list of bytes `d : List Nat`
together with a cursor `pos : Nat`; `fread d pos n` mirrors Python's
`f.read(n)`, which returns *up to* `n` bytes and advances the cursor by the
number of bytes actually returned.  Exceptions raised inside the decoder
(`struct.error` / `IndexError` on short reads, all caught by the source's
`except` block) are modelled as a typed error `Err.truncatedInput` carrying
the cursor position at the failure point; the explicit magic-marker
mismatch path (`return False` after the comparison) is `Err.invalidMagic`.
-/

namespace MapReader

/-- Error taxonomy of the decoder: a magic-marker mismatch, or the stream
ending before a required read completes. -/
inductive Err where
  | invalidMagic
  | truncatedInput
deriving DecidableEq

/-- `f.read(n)`: returns up to `n` bytes from position `pos` and the new
cursor position (advanced by the number of bytes actually returned). -/
def fread (d : List Nat) (pos n : Nat) : List Nat × Nat :=
  let bs := (d.drop pos).take n
  (bs, pos + bs.length)

/-- Loop body of `MapFileReader.read_variable_byte`, acting on the bytes
remaining in the stream: accumulates the low 7 bits of each byte at the
current shift (`result |= (b & 0x7F) << shift`), stops on a byte whose
high bit is clear, returns `none` at end-of-stream.  Also returns the
number of bytes consumed. -/
def readVarintAux : List Nat → Nat → Nat → Option (Nat × Nat)
  | [], _, _ => none
  | b :: rest, shift, acc =>
    let acc2 := acc ||| ((b &&& 0x7F) <<< shift)
    if b &&& 0x80 = 0 then some (acc2, 1)
    else
      match readVarintAux rest (shift + 7) acc2 with
      | none => none
      | some (v, k) => some (v, k + 1)

/-- `MapFileReader.read_variable_byte`: reads a variable-length
byte-encoded integer; `none` when the stream ends before a terminating
byte, in which case all remaining bytes have been consumed. -/
def read_variable_byte (d : List Nat) (pos : Nat) : Option Nat × Nat :=
  match readVarintAux (d.drop pos) 0 0 with
  | none => (none, pos + (d.drop pos).length)
  | some (v, k) => (some v, pos + k)

/-- Model of CPython `bytes.decode('utf-8', errors='ignore')`: UTF-8
decoding that silently drops invalid byte sequences (following the
maximal-subpart rule for how many bytes an error skips).  Structured with
a fuel argument (the list length suffices) for structural termination. -/
def utf8Aux : Nat → List Nat → List Char
  | 0, _ => []
  | _, [] => []
  | fuel + 1, b :: rest =>
    if b < 0x80 then Char.ofNat b :: utf8Aux fuel rest
    else if b < 0xC2 then utf8Aux fuel rest
    else if b < 0xE0 then
      match rest with
      | [] => []
      | c :: r2 =>
        if 0x80 ≤ c ∧ c < 0xC0 then
          Char.ofNat ((b - 0xC0) * 64 + (c - 0x80)) :: utf8Aux fuel r2
        else utf8Aux fuel (c :: r2)
    else if b < 0xF0 then
      match rest with
      | [] => []
      | c :: r2 =>
        if (if b = 0xE0 then 0xA0 ≤ c ∧ c < 0xC0
            else if b = 0xED then 0x80 ≤ c ∧ c < 0xA0
            else 0x80 ≤ c ∧ c < 0xC0) then
          match r2 with
          | [] => []
          | e2 :: r3 =>
            if 0x80 ≤ e2 ∧ e2 < 0xC0 then
              Char.ofNat ((b - 0xE0) * 4096 + (c - 0x80) * 64 + (e2 - 0x80)) ::
                utf8Aux fuel r3
            else utf8Aux fuel (e2 :: r3)
        else utf8Aux fuel (c :: r2)
    else if b < 0xF5 then
      match rest with
      | [] => []
      | c :: r2 =>
        if (if b = 0xF0 then 0x90 ≤ c ∧ c < 0xC0
            else if b = 0xF4 then 0x80 ≤ c ∧ c < 0x90
            else 0x80 ≤ c ∧ c < 0xC0) then
          match r2 with
          | [] => []
          | e2 :: r3 =>
            if 0x80 ≤ e2 ∧ e2 < 0xC0 then
              match r3 with
              | [] => []
              | e3 :: r4 =>
                if 0x80 ≤ e3 ∧ e3 < 0xC0 then
                  Char.ofNat ((b - 0xF0) * 262144 + (c - 0x80) * 4096 +
                      (e2 - 0x80) * 64 + (e3 - 0x80)) :: utf8Aux fuel r4
                else utf8Aux fuel (e3 :: r4)
            else utf8Aux fuel (e2 :: r3)
        else utf8Aux fuel (c :: r2)
    else utf8Aux fuel rest

/-- `bytes.decode('utf-8', errors='ignore')` on a byte list. -/
def utf8DecodeIgnore (bs : List Nat) : List Char :=
  utf8Aux bs.length bs

/-- `MapFileReader.read_utf8_string`: varint length, then that many bytes
decoded leniently; empty string when the varint hits end-of-stream or the
length is zero.  Total: never signals an error. -/
def read_utf8_string (d : List Nat) (pos : Nat) : String × Nat :=
  match read_variable_byte d pos with
  | (none, pos2) => ("", pos2)
  | (some len, pos2) =>
    if len = 0 then ("", pos2)
    else
      let (bs, pos3) := fread d pos2 len
      (String.mk (utf8DecodeIgnore bs), pos3)

/-- `struct.unpack('>...', f.read(w))[0]` (and `f.read(1)[0]`): a
big-endian fixed-width read; `struct.error` / `IndexError` on a short
read is the `truncatedInput` failure. -/
def read_fixed (d : List Nat) (pos w : Nat) : Except (Err × Nat) (Nat × Nat) :=
  let (bs, pos2) := fread d pos w
  if bs.length = w then .ok (bs.foldl (fun a b => a * 256 + b) 0, pos2)
  else .error (.truncatedInput, pos2)

/-- ASCII bytes of a string (all characters involved are below 0x80). -/
def asciiB (s : String) : List Nat :=
  s.data.map Char.toNat

/-- `MapFileReader.MAGIC_BYTE = b"mapsforge binary OSM"`. -/
def magicBytes : List Nat :=
  asciiB "mapsforge binary OSM"

/-- One entry of the zoom-interval (subfile descriptor) table. -/
structure ZoomInterval where
  base_zoom : Nat
  min_zoom : Nat
  max_zoom : Nat
  subfile_start : Nat
  subfile_size : Nat
deriving DecidableEq

/-- The decode result assigned to `self.tags` on success. -/
structure MapFileTags where
  poi_tags : List String
  way_tags : List String
  zoom_intervals : List ZoomInterval
deriving DecidableEq

/-- Lines 48-88 of `extract_tags`: magic marker, header size, file
version, file size, creation date, bounding box (4 signed 32-bit reads,
values only printed), tile size, projection string.  Returns the cursor
after the projection string. -/
def parseFixedHeader (d : List Nat) (pos : Nat) : Except (Err × Nat) Nat := do
  let (magic, pos) := fread d pos 20
  if magic ≠ magicBytes then throw (.invalidMagic, pos)
  else
    let (_, pos) ← read_fixed d pos 4
    let (_, pos) ← read_fixed d pos 4
    let (_, pos) ← read_fixed d pos 8
    let (_, pos) ← read_fixed d pos 8
    let (_, pos) ← read_fixed d pos 4
    let (_, pos) ← read_fixed d pos 4
    let (_, pos) ← read_fixed d pos 4
    let (_, pos) ← read_fixed d pos 4
    let (_, pos) ← read_fixed d pos 2
    let (_, pos) := read_utf8_string d pos
    pure pos

/-- Lines 109-133: the flag-gated optional fields, in fixed order:
start position (two 4-byte reads), start zoom (1 byte), language
preference, comment, created-by (strings). -/
def parseOptionalFields (d : List Nat) (flags pos : Nat) :
    Except (Err × Nat) Nat := do
  let pos ← if flags &&& 0x40 ≠ 0 then do
      let (_, pos) ← read_fixed d pos 4
      let (_, pos) ← read_fixed d pos 4
      pure pos
    else pure pos
  let pos ← if flags &&& 0x20 ≠ 0 then do
      let (_, pos) ← read_fixed d pos 1
      pure pos
    else pure pos
  let pos := if flags &&& 0x10 ≠ 0 then (read_utf8_string d pos).2 else pos
  let pos := if flags &&& 0x08 ≠ 0 then (read_utf8_string d pos).2 else pos
  let pos := if flags &&& 0x04 ≠ 0 then (read_utf8_string d pos).2 else pos
  pure pos

/-- The whole header stage: fixed header, flags byte, optional fields. -/
def parseHeader (d : List Nat) (pos : Nat) : Except (Err × Nat) Nat := do
  let pos ← parseFixedHeader d pos
  let (flags, pos) ← read_fixed d pos 1
  parseOptionalFields d flags pos

/-- The tag-reading loops (lines 140-144 and 151-155): `n` successive
`read_utf8_string` calls, results in read order.  Total, like the string
reader itself. -/
def readTags (d : List Nat) : Nat → Nat → List String × Nat
  | 0, pos => ([], pos)
  | n + 1, pos =>
    let (t, pos2) := read_utf8_string d pos
    let (ts, pos3) := readTags d n pos2
    (t :: ts, pos3)

/-- The zoom-interval loop (lines 164-177): `n` fixed-layout records of
base zoom, min zoom, max zoom (1 byte each), subfile start and size
(8 bytes each). -/
def readZooms (d : List Nat) : Nat → Nat → Except (Err × Nat) (List ZoomInterval × Nat)
  | 0, pos => pure ([], pos)
  | n + 1, pos => do
    let (bz, pos) ← read_fixed d pos 1
    let (mn, pos) ← read_fixed d pos 1
    let (mx, pos) ← read_fixed d pos 1
    let (st, pos) ← read_fixed d pos 8
    let (sz, pos) ← read_fixed d pos 8
    let (zs, pos) ← readZooms d n pos
    pure (⟨bz, mn, mx, st, sz⟩ :: zs, pos)

/-- Lines 136-190: POI tag count (2 bytes) and table, way tag count
(2 bytes) and table, zoom-interval count (1 byte) and table. -/
def parseTables (d : List Nat) (pos : Nat) :
    Except (Err × Nat) (MapFileTags × Nat) := do
  let (npoi, pos) ← read_fixed d pos 2
  let (poi, pos) := readTags d npoi pos
  let (nway, pos) ← read_fixed d pos 2
  let (way, pos) := readTags d nway pos
  let (nz, pos) ← read_fixed d pos 1
  let (zs, pos) ← readZooms d nz pos
  pure (⟨poi, way, zs⟩, pos)

/-- `MapFileReader.extract_tags` on the contents of the file: either the
fully populated `MapFileTags` (the dict assigned to `self.tags` just
before `return True`) or a typed error with the cursor at the failure
point (the source prints the exception and returns `False`). -/
def extract_tags (file : List Nat) : Except (Err × Nat) MapFileTags := do
  let pos ← parseHeader file 0
  let (t, _) ← parseTables file pos
  pure t

/-- The method including the `self.tags` field: the field (initially the
empty value `none`, modelling the `[]` set in `__init__`) is overwritten
only on the success path, just before `return True`. -/
def extract_tags_method (tags0 : Option MapFileTags) (file : List Nat) :
    Bool × Option MapFileTags :=
  match extract_tags file with
  | .ok t => (true, some t)
  | .error _ => (false, tags0)

/-- Varint encoder (test scaffolding for the roundtrip property): low 7
bits first, high bit set on every byte except the last.  The fuel
argument (the value itself suffices) keeps the recursion structural. -/
def encVarintAux : Nat → Nat → List Nat
  | 0, n => [n % 128]
  | f + 1, n => if n < 128 then [n] else (128 + n % 128) :: encVarintAux f (n / 128)

/-- Valid varint encoding of `n`. -/
def encVarint (n : Nat) : List Nat :=
  encVarintAux n n

/-- Big-endian fixed-width encoder (test scaffolding), `w` bytes. -/
def be : Nat → Nat → List Nat
  | 0, _ => []
  | w + 1, n => be w (n / 256) ++ [n % 256]

/-- Header bytes up to (excluding) the flags byte: magic marker, header
size 0, version 5, file size 100, timestamp 0, bounding box
(1.0, 2.0, 3.0, 4.0) scaled by 1,000,000, tile size 256, projection
"EPSG:3857". -/
def hdrNoFlags : List Nat :=
  asciiB "mapsforge binary OSM" ++ be 4 0 ++ be 4 5 ++ be 8 100 ++ be 8 0
    ++ be 4 1000000 ++ be 4 2000000 ++ be 4 3000000 ++ be 4 4000000
    ++ be 2 256 ++ [9] ++ asciiB "EPSG:3857"

/-- The synthetic buffer of the round-trip scenario: header with flags
0x00, 2 POI tags, 1 way tag, 1 zoom interval (base 14, min 8, max 17,
start 1000, size 5000). -/
def sampleBuf : List Nat :=
  hdrNoFlags ++ [0x00]
    ++ be 2 2 ++ [18] ++ asciiB "amenity=restaurant" ++ [11] ++ asciiB "shop=bakery"
    ++ be 2 1 ++ [15] ++ asciiB "highway=primary"
    ++ [1] ++ [14, 8, 17] ++ be 8 1000 ++ be 8 5000

/-- A buffer declaring 3 POI tags but ending after 2 one-byte tags. -/
def truncatedPoiBuf : List Nat :=
  hdrNoFlags ++ [0x00] ++ [0, 3] ++ [1, 97] ++ [1, 98]

/-- A buffer ending immediately after a flags byte with the
start-position bit (0x40) set. -/
def flagsEndBuf : List Nat :=
  hdrNoFlags ++ [0x40]

/-! ### Helper lemmas -/

lemma and127_eq_mod (x : Nat) : x &&& 127 = x % 128 := by
  have h := Nat.and_pow_two_sub_one_eq_mod x 7
  norm_num at h
  exact h

lemma and128_of_lt {x : Nat} (h : x < 128) : x &&& 128 = 0 := by
  have h2 : x &&& 2 ^ 7 = (x.testBit 7).toNat * 2 ^ 7 := Nat.and_two_pow x 7
  rw [Nat.testBit_lt_two_pow (by norm_num at h ⊢; exact h)] at h2
  norm_num at h2 ⊢
  exact h2

lemma and128_of_cont (r : Nat) : (128 + r % 128) &&& 128 = 128 := by
  have hdd : (128 + r % 128) / 2 ^ 7 = 1 := by
    have h7 : (2 : Nat) ^ 7 = 128 := by norm_num
    rw [h7]
    omega
  have hbit : (128 + r % 128).testBit 7 = true := by
    rw [Nat.testBit_to_div_mod, hdd]
    simp
  have h2 : (128 + r % 128) &&& 2 ^ 7 = ((128 + r % 128).testBit 7).toNat * 2 ^ 7 :=
    Nat.and_two_pow _ 7
  rw [hbit] at h2
  norm_num at h2 ⊢
  exact h2

/-- Splitting a value at bit 7 and re-assembling at shifted positions. -/
lemma varint_split (n shift : Nat) :
    ((n % 128) <<< shift) ||| ((n / 128) <<< (shift + 7)) = n <<< shift := by
  have hdiv : n / 128 = n >>> 7 := by
    rw [Nat.shiftRight_eq_div_pow]
  have hmod : n % 128 = n % 2 ^ 7 := by norm_num
  apply Nat.eq_of_testBit_eq
  intro i
  simp only [Nat.testBit_lor, Nat.testBit_shiftLeft, hdiv, Nat.testBit_shiftRight, hmod,
    Nat.testBit_mod_two_pow]
  by_cases h1 : shift ≤ i
  · by_cases h2 : i - shift < 7
    · have h3 : ¬ (shift + 7 ≤ i) := by omega
      simp [h1, h2, h3]
    · have h3 : shift + 7 ≤ i := by omega
      have h4 : 7 + (i - (shift + 7)) = i - shift := by omega
      simp [h1, h2, h3, h4]
  · have h3 : ¬ (shift + 7 ≤ i) := by omega
    simp [h1, h3]

/-- Decoding an encoded varint: the accumulator (whose set bits lie below
`shift`) is or-ed with the value shifted into place, and exactly the
encoding's bytes are consumed. -/
lemma readVarintAux_enc :
    ∀ (f n shift acc : Nat) (rest : List Nat), n ≤ f → acc < 2 ^ shift →
      readVarintAux (encVarintAux f n ++ rest) shift acc =
        some (acc ||| (n <<< shift), (encVarintAux f n).length) := by
  intro f
  induction f with
  | zero =>
    intro n shift acc rest hn hacc
    have hn0 : n = 0 := Nat.le_zero.mp hn
    subst hn0
    simp [encVarintAux, readVarintAux, Nat.zero_shiftLeft]
  | succ f ih =>
    intro n shift acc rest hn hacc
    by_cases h : n < 128
    · simp only [encVarintAux, if_pos h]
      have h80 : n &&& 128 = 0 := and128_of_lt h
      have h7f : n &&& 127 = n := by
        rw [and127_eq_mod, Nat.mod_eq_of_lt h]
      simp [readVarintAux, h80, h7f]
    · simp only [encVarintAux, if_neg h]
      have hdivf : n / 128 ≤ f := by
        have := Nat.div_lt_self (by omega : 0 < n) (by norm_num : 1 < 128)
        omega
      have hacc2 : acc ||| ((n % 128) <<< shift) < 2 ^ (shift + 7) := by
        apply Nat.or_lt_two_pow
        · exact lt_of_lt_of_le hacc (Nat.pow_le_pow_right (by norm_num) (by omega))
        · rw [Nat.shiftLeft_eq, pow_add]
          have h2p : 0 < (2 : Nat) ^ shift := Nat.pos_pow_of_pos _ (by norm_num)
          have hlt : n % 128 * 2 ^ shift < 128 * 2 ^ shift :=
            (Nat.mul_lt_mul_right h2p).mpr (Nat.mod_lt _ (by norm_num))
          calc n % 128 * 2 ^ shift < 128 * 2 ^ shift := hlt
            _ = 2 ^ shift * 2 ^ 7 := by ring
      have h80 : (128 + n % 128) &&& 128 = 128 := and128_of_cont n
      have h7f : (128 + n % 128) &&& 127 = n % 128 := by
        rw [and127_eq_mod, Nat.add_mod_left, Nat.mod_eq_of_lt (Nat.mod_lt _ (by norm_num))]
      simp only [List.cons_append, readVarintAux, h80, h7f]
      rw [if_neg (by norm_num)]
      simp only [List.append_eq]
      rw [ih (n / 128) (shift + 7) _ rest hdivf hacc2]
      simp only [List.length_cons]
      rw [Nat.lor_assoc, varint_split]

/-- `read_variable_byte` at a position whose remaining bytes start with a
valid varint encoding decodes exactly that value and consumes exactly the
encoding. -/
lemma read_variable_byte_enc (d : List Nat) (pos n : Nat) (rest : List Nat)
    (h : d.drop pos = encVarint n ++ rest) :
    read_variable_byte d pos = (some n, pos + (encVarint n).length) := by
  unfold read_variable_byte
  rw [h, encVarint, readVarintAux_enc n n 0 0 rest le_rfl (by norm_num)]
  simp [Nat.shiftLeft_zero]

/-- `read_utf8_string` at end-of-stream: the length varint hits the end
of the stream and the empty string is returned, no bytes consumed. -/
lemma read_utf8_string_eof (d : List Nat) (pos : Nat) (h : d.length ≤ pos) :
    read_utf8_string d pos = ("", pos) := by
  unfold read_utf8_string read_variable_byte
  rw [List.drop_eq_nil_of_le h]
  simp [readVarintAux]

/-- A fixed-width read of at least one byte fails at end-of-stream. -/
lemma read_fixed_eof (d : List Nat) (pos w : Nat) (h : d.length ≤ pos) (hw : w ≠ 0) :
    read_fixed d pos w = .error (.truncatedInput, pos) := by
  unfold read_fixed fread
  rw [List.drop_eq_nil_of_le h]
  simp [Ne.symm hw]

/-- `read_utf8_string` at a position holding a complete length-prefixed
payload: decodes the payload leniently and consumes exactly the length
prefix plus the payload. -/
lemma read_utf8_string_enc (d : List Nat) (pos : Nat) (p rest : List Nat)
    (h : d.drop pos = encVarint p.length ++ (p ++ rest)) :
    read_utf8_string d pos =
      (String.mk (utf8DecodeIgnore p),
        pos + (encVarint p.length).length + p.length) := by
  simp only [read_utf8_string, read_variable_byte_enc d pos p.length (p ++ rest) h]
  by_cases hp : p.length = 0
  · have hpnil : p = [] := List.length_eq_zero.mp hp
    subst hpnil
    simp [utf8DecodeIgnore, utf8Aux]
  · rw [if_neg hp]
    have hdrop2 : d.drop (pos + (encVarint p.length).length) = p ++ rest := by
      rw [← List.drop_drop, h, List.drop_left' rfl]
    simp only [fread, hdrop2, List.take_left' rfl]

/-- The remaining bytes after `read_utf8_string` consumed a complete
length-prefixed payload. -/
lemma drop_after_string (d : List Nat) (pos : Nat) (p rest : List Nat)
    (h : d.drop pos = encVarint p.length ++ (p ++ rest)) :
    d.drop (pos + (encVarint p.length).length + p.length) = rest := by
  rw [Nat.add_assoc, ← List.drop_drop, h, ← List.append_assoc,
    List.drop_left' (by simp)]

lemma readTags_zero (d : List Nat) (pos : Nat) : readTags d 0 pos = ([], pos) := rfl

lemma readTags_succ (d : List Nat) (n pos : Nat) :
    readTags d (n + 1) pos =
      ((read_utf8_string d pos).1 :: (readTags d n (read_utf8_string d pos).2).1,
        (readTags d n (read_utf8_string d pos).2).2) := rfl

/-- Once the header stage has succeeded, `extract_tags` is the table
stage. -/
lemma extract_tags_after_header (file : List Nat) (hp : Nat)
    (h : parseHeader file 0 = .ok hp) :
    extract_tags file = Except.bind (parseTables file hp) (fun x => Except.ok x.1) := by
  unfold extract_tags
  rw [h]
  rfl

/-- Reading 3 tags when exactly two complete length-prefixed entries
remain: the third string read hits end-of-stream and yields `""`, and the
cursor ends at or past the end of the data. -/
lemma readTags_two_then_eof (d : List Nat) (pos : Nat) (p1 p2 : List Nat)
    (h : d.drop pos = encVarint p1.length ++ (p1 ++ (encVarint p2.length ++ (p2 ++ [])))) :
    ∃ q, readTags d 3 pos =
      ([String.mk (utf8DecodeIgnore p1), String.mk (utf8DecodeIgnore p2), ""], q) ∧
      d.length ≤ q := by
  have e1 := read_utf8_string_enc d pos p1 _ h
  have d1 := drop_after_string d pos p1 _ h
  have e2 := read_utf8_string_enc d (pos + (encVarint p1.length).length + p1.length) p2 [] d1
  have d2 := drop_after_string d (pos + (encVarint p1.length).length + p1.length) p2 [] d1
  have heof : d.length ≤
      pos + (encVarint p1.length).length + p1.length
        + (encVarint p2.length).length + p2.length := by
    rw [List.drop_eq_nil_iff] at d2
    exact d2
  have e3 := read_utf8_string_eof d _ heof
  refine ⟨_, ?_, heof⟩
  rw [show (3 : Nat) = 2 + 1 from rfl, readTags_succ, e1]
  simp only
  rw [show (2 : Nat) = 1 + 1 from rfl, readTags_succ, e2]
  simp only
  rw [show (1 : Nat) = 0 + 1 from rfl, readTags_succ, e3]
  simp only [readTags_zero]

/-- At end-of-stream the optional-field stage either fails with
`truncatedInput` (a flag gating a fixed-width read) or passes through
with the cursor unchanged (string reads are lenient at EOS). -/
lemma parseOptionalFields_eof (d : List Nat) (flags pos : Nat) (h : d.length ≤ pos) :
    parseOptionalFields d flags pos = .error (.truncatedInput, pos) ∨
      parseOptionalFields d flags pos = .ok pos := by
  unfold parseOptionalFields
  by_cases h40 : flags &&& 0x40 ≠ 0
  · left
    simp [h40, read_fixed_eof d pos 4 h (by norm_num), bind, Except.bind]
  · by_cases h20 : flags &&& 0x20 ≠ 0
    · left
      simp [h40, h20, read_fixed_eof d pos 1 h (by norm_num), bind, Except.bind,
        pure, Except.pure]
    · right
      simp [h40, h20, read_utf8_string_eof d pos h, bind, Except.bind, pure, Except.pure]

/-- The table stage fails immediately at end-of-stream: the 2-byte POI
tag count cannot be read. -/
lemma parseTables_eof (d : List Nat) (pos : Nat) (h : d.length ≤ pos) :
    parseTables d pos = .error (.truncatedInput, pos) := by
  unfold parseTables
  simp [read_fixed_eof d pos 2 h (by norm_num), bind, Except.bind]

/-- The tag loop produces exactly as many strings as requested. -/
lemma readTags_length (d : List Nat) :
    ∀ (n pos : Nat), ((readTags d n pos).1).length = n := by
  intro n
  induction n with
  | zero => intro pos; rfl
  | succ n ih =>
    intro pos
    rw [readTags_succ]
    simp [ih]

/-- The zoom-interval loop produces exactly as many records as requested
when it succeeds. -/
lemma readZooms_length (d : List Nat) :
    ∀ (n pos : Nat) (zs : List ZoomInterval) (q : Nat),
      readZooms d n pos = .ok (zs, q) → zs.length = n := by
  intro n
  induction n with
  | zero =>
    intro pos zs q h
    simp only [readZooms, pure, Except.pure] at h
    cases h
    rfl
  | succ n ih =>
    intro pos zs q h
    simp only [readZooms, bind, Except.bind] at h
    cases hx1 : read_fixed d pos 1 with
    | error e => rw [hx1] at h; simp at h
    | ok v1 =>
      rw [hx1] at h
      obtain ⟨bz, q1⟩ := v1
      simp only at h
      cases hx2 : read_fixed d q1 1 with
      | error e => rw [hx2] at h; simp at h
      | ok v2 =>
        rw [hx2] at h
        obtain ⟨mn, q2⟩ := v2
        simp only at h
        cases hx3 : read_fixed d q2 1 with
        | error e => rw [hx3] at h; simp at h
        | ok v3 =>
          rw [hx3] at h
          obtain ⟨mx, q3⟩ := v3
          simp only at h
          cases hx4 : read_fixed d q3 8 with
          | error e => rw [hx4] at h; simp at h
          | ok v4 =>
            rw [hx4] at h
            obtain ⟨st, q4⟩ := v4
            simp only at h
            cases hx5 : read_fixed d q4 8 with
            | error e => rw [hx5] at h; simp at h
            | ok v5 =>
              rw [hx5] at h
              obtain ⟨sz, q5⟩ := v5
              simp only at h
              cases hx6 : readZooms d n q5 with
              | error e => rw [hx6] at h; simp at h
              | ok v6 =>
                rw [hx6] at h
                obtain ⟨zs6, q6⟩ := v6
                simp only [pure, Except.pure] at h
                cases h
                have hlen := ih q5 zs6 _ hx6
                simp [hlen]

/-! ### Claim theorems -/

/-- C4: for every n in [0, 2^63), decoding the valid varint encoding of n
with `read_variable_byte` returns n (and consumes exactly the encoding,
whatever follows it). -/
theorem claim_C4_varint_roundtrip (n : Nat) (rest : List Nat) (h : n < 2 ^ 63) :
    read_variable_byte (encVarint n ++ rest) 0 = (some n, (encVarint n).length) := by
  have h2 := read_variable_byte_enc (encVarint n ++ rest) 0 n rest (by simp)
  simpa using h2

/-- Witness for C4 at n = 300. -/
theorem claim_C4_witness :
    300 < 2 ^ 63 ∧
      read_variable_byte (encVarint 300 ++ [5]) 0 = (some 300, (encVarint 300).length) :=
  ⟨by norm_num, claim_C4_varint_roundtrip 300 [5] (by norm_num)⟩

/-- C7: when the next stream byte is the varint 0 (one byte 0x00),
`read_utf8_string` consumes exactly that byte and returns the empty
string. -/
theorem claim_C7_zero_length (d : List Nat) (pos : Nat) (rest : List Nat)
    (h : d.drop pos = 0 :: rest) :
    read_utf8_string d pos = ("", pos + 1) := by
  have henc : d.drop pos = encVarint (List.length ([] : List Nat)) ++ ([] ++ rest) := by
    simpa [encVarint, encVarintAux] using h
  simpa [encVarint, encVarintAux, utf8DecodeIgnore, utf8Aux] using
    read_utf8_string_enc d pos [] rest henc

/-- Witness for C7. -/
theorem claim_C7_witness : read_utf8_string [0, 55] 0 = ("", 1) :=
  claim_C7_zero_length [0, 55] 0 [55] rfl

/-- Counterexample to C2 as stated: the payload `[0x61, 0xFF, 0x62]`
contains an invalid UTF-8 byte, yet the decoded string is "ab" — the
invalid byte is dropped (`errors='ignore'`), not replaced by U+FFFD. -/
theorem claim_C2_counterexample :
    (read_utf8_string [3, 97, 255, 98] 0).1 = "ab" ∧
      ¬ Char.ofNat 0xFFFD ∈ ((read_utf8_string [3, 97, 255, 98] 0).1).data := by
  constructor
  · rfl
  · decide

/-- C2 (amended): for every length-prefixed payload, `read_utf8_string`
returns the payload decoded with invalid UTF-8 byte sequences silently
dropped (CPython `errors='ignore'`), never signalling an error (the
return type has no failure case). -/
theorem claim_C2_lenient_decoding (d : List Nat) (pos : Nat) (p rest : List Nat)
    (h : d.drop pos = encVarint p.length ++ (p ++ rest)) :
    read_utf8_string d pos =
      (String.mk (utf8DecodeIgnore p),
        pos + (encVarint p.length).length + p.length) :=
  read_utf8_string_enc d pos p rest h

/-- Witness for the amended C2 on a payload with an invalid byte. -/
theorem claim_C2_witness :
    read_utf8_string [3, 97, 255, 98] 0 =
      (String.mk (utf8DecodeIgnore [97, 255, 98]), 0 + 1 + 3) :=
  claim_C2_lenient_decoding [3, 97, 255, 98] 0 [97, 255, 98] [] (by decide)

/-- C3: decoding the synthetic round-trip buffer yields exactly the
declared POI tags, way tags and zoom interval, in order. -/
theorem claim_C3_roundtrip :
    extract_tags sampleBuf =
      .ok ⟨["amenity=restaurant", "shop=bakery"], ["highway=primary"],
        [⟨14, 8, 17, 1000, 5000⟩]⟩ := by
  rfl

/-- C5: any file whose first 20 bytes differ from the magic marker fails
with `invalidMagic`, with the cursor at most 20 (no bytes consumed beyond
the marker). -/
theorem claim_C5_invalid_magic (file : List Nat) (h : file.take 20 ≠ magicBytes) :
    extract_tags file = .error (.invalidMagic, (file.take 20).length) ∧
      (file.take 20).length ≤ 20 := by
  constructor
  · unfold extract_tags parseHeader parseFixedHeader fread
    simp only [List.drop_zero, Nat.zero_add]
    rw [if_pos h]
    rfl
  · simpa using Nat.min_le_left 20 file.length

/-- Witness for C5. -/
theorem claim_C5_witness :
    extract_tags [1, 2, 3] = .error (.invalidMagic, ([1, 2, 3].take 20).length) ∧
      (([1, 2, 3] : List Nat).take 20).length ≤ 20 :=
  claim_C5_invalid_magic [1, 2, 3] (by decide)

/-- C9: whenever the decode fails, the `tags` field keeps its value from
before the call (`self.tags` is assigned only after every read
succeeded, just before `return True`). -/
theorem claim_C9_no_partial_result (tags0 : Option MapFileTags) (file : List Nat)
    (e : Err × Nat) (h : extract_tags file = .error e) :
    extract_tags_method tags0 file = (false, tags0) := by
  unfold extract_tags_method
  rw [h]

/-- Witness for C9 on the empty file. -/
theorem claim_C9_witness : extract_tags_method none [] = (false, none) :=
  claim_C9_no_partial_result none [] (.invalidMagic, 0) rfl

/-- C10: `read_utf8_string` is total (its return type has no failure
case) and benign at truncation: if the length varint hits end-of-stream
it returns the empty string, and if fewer payload bytes remain than the
declared length it decodes just the remaining bytes. -/
theorem claim_C10_total_on_truncation (d : List Nat) (pos : Nat) :
    (∀ p2, read_variable_byte d pos = (none, p2) →
      read_utf8_string d pos = ("", p2)) ∧
    (∀ n p2, read_variable_byte d pos = (some n, p2) → (d.drop p2).length ≤ n →
      read_utf8_string d pos =
        (String.mk (utf8DecodeIgnore (d.drop p2)), p2 + (d.drop p2).length)) := by
  constructor
  · intro p2 h
    simp only [read_utf8_string, h]
  · intro n p2 h hlen
    simp only [read_utf8_string, h]
    by_cases hn : n = 0
    · subst hn
      have hnil : d.drop p2 = [] := List.length_eq_zero.mp (Nat.le_zero.mp hlen)
      simp [hnil, utf8DecodeIgnore, utf8Aux]
    · rw [if_neg hn]
      simp only [fread, List.take_of_length_le hlen]

/-- Witness for C10: a stream ending inside the varint, and a stream with
a short payload. -/
theorem claim_C10_witness :
    read_utf8_string [128, 129] 0 = ("", 2) ∧ read_utf8_string [2, 65] 0 = ("A", 2) := by
  constructor
  · exact (claim_C10_total_on_truncation [128, 129] 0).1 2 rfl
  · have h := (claim_C10_total_on_truncation [2, 65] 0).2 2 1 rfl (by simp)
    rw [h]
    rfl

/-- C1: a file whose header parses, declaring 3 POI tags but with exactly
2 complete tag entries before end-of-stream, fails with `truncatedInput`
(the decode returns an error, not any 2- or 3-element tag sequence). -/
theorem claim_C1_truncated_poi_table (file : List Nat) (hp : Nat) (p1 p2 : List Nat)
    (hhdr : parseHeader file 0 = .ok hp)
    (hrest : file.drop hp =
      0 :: 3 :: (encVarint p1.length ++ (p1 ++ (encVarint p2.length ++ (p2 ++ []))))) :
    ∃ q, extract_tags file = .error (.truncatedInput, q) := by
  have hfix : read_fixed file hp 2 = .ok (3, hp + 2) := by
    unfold read_fixed fread
    rw [hrest]
    norm_num
  have hdrop2 : file.drop (hp + 2) =
      encVarint p1.length ++ (p1 ++ (encVarint p2.length ++ (p2 ++ []))) := by
    rw [← List.drop_drop, hrest]
    rfl
  obtain ⟨q, hR, heof⟩ := readTags_two_then_eof file (hp + 2) p1 p2 hdrop2
  have hfail : read_fixed file q 2 = .error (.truncatedInput, q) :=
    read_fixed_eof file q 2 heof (by norm_num)
  refine ⟨q, ?_⟩
  rw [extract_tags_after_header file hp hhdr]
  simp only [parseTables, hfix, hR, hfail, bind, Except.bind]

/-- Witness for C1: a concrete file declaring 3 POI tags with only the
entries "a" and "b" present. -/
theorem claim_C1_witness :
    ∃ q, extract_tags truncatedPoiBuf = .error (.truncatedInput, q) :=
  claim_C1_truncated_poi_table truncatedPoiBuf 73 [97] [98] rfl (by decide)

/-- C6: a file that is well-formed up to and including the flags byte,
ends immediately after it, and has an optional-field flag bit set, fails
with `truncatedInput`. -/
theorem claim_C6_truncated_after_flags (file : List Nat) (p0 flags p1 : Nat)
    (h0 : parseFixedHeader file 0 = .ok p0)
    (h1 : read_fixed file p0 1 = .ok (flags, p1))
    (hend : p1 = file.length)
    (hbit : flags &&& 0x7C ≠ 0) :
    extract_tags file = .error (.truncatedInput, p1) := by
  have heof : file.length ≤ p1 := le_of_eq hend.symm
  have hhdr_or : parseHeader file 0 = .error (.truncatedInput, p1) ∨
      parseHeader file 0 = .ok p1 := by
    unfold parseHeader
    rw [h0]
    simp only [bind, Except.bind]
    rw [h1]
    exact parseOptionalFields_eof file flags p1 heof
  rcases hhdr_or with h | h
  · unfold extract_tags
    rw [h]
    rfl
  · rw [extract_tags_after_header file p1 h, parseTables_eof file p1 heof]
    rfl

/-- Witness for C6: a concrete file ending right after a flags byte with
the start-position bit set. -/
theorem claim_C6_witness :
    extract_tags flagsEndBuf = .error (.truncatedInput, 73) :=
  claim_C6_truncated_after_flags flagsEndBuf 72 0x40 73 rfl rfl (by decide) (by decide)

/-- C8: whenever the decode succeeds, the result's three sequences have
exactly the lengths declared by the counts read from the stream, and each
sequence is exactly the one read, in read order. -/
theorem claim_C8_lengths_match_counts (file : List Nat) (t : MapFileTags)
    (h : extract_tags file = .ok t) :
    ∃ hp npoi pa qa nway pb qb nz pc qc,
      parseHeader file 0 = .ok hp ∧
      read_fixed file hp 2 = .ok (npoi, pa) ∧
      readTags file npoi pa = (t.poi_tags, qa) ∧
      t.poi_tags.length = npoi ∧
      read_fixed file qa 2 = .ok (nway, pb) ∧
      readTags file nway pb = (t.way_tags, qb) ∧
      t.way_tags.length = nway ∧
      read_fixed file qb 1 = .ok (nz, pc) ∧
      readZooms file nz pc = .ok (t.zoom_intervals, qc) ∧
      t.zoom_intervals.length = nz := by
  unfold extract_tags at h
  cases hh : parseHeader file 0 with
  | error e => rw [hh] at h; simp [bind, Except.bind] at h
  | ok hp =>
    rw [hh] at h
    simp only [bind, Except.bind] at h
    unfold parseTables at h
    simp only [bind, Except.bind] at h
    cases h1 : read_fixed file hp 2 with
    | error e => rw [h1] at h; simp at h
    | ok v1 =>
      rw [h1] at h
      obtain ⟨npoi, pa⟩ := v1
      simp only at h
      rcases hT1 : readTags file npoi pa with ⟨poi, qa⟩
      rw [hT1] at h
      simp only at h
      cases h2 : read_fixed file qa 2 with
      | error e => rw [h2] at h; simp at h
      | ok v2 =>
        rw [h2] at h
        obtain ⟨nway, pb⟩ := v2
        simp only at h
        rcases hT2 : readTags file nway pb with ⟨way, qb⟩
        rw [hT2] at h
        simp only at h
        cases h3 : read_fixed file qb 1 with
        | error e => rw [h3] at h; simp at h
        | ok v3 =>
          rw [h3] at h
          obtain ⟨nz, pc⟩ := v3
          simp only at h
          cases h4 : readZooms file nz pc with
          | error e => rw [h4] at h; simp at h
          | ok v4 =>
            rw [h4] at h
            obtain ⟨zs, qc⟩ := v4
            simp only [pure, Except.pure, Except.ok.injEq] at h
            subst h
            refine ⟨hp, npoi, pa, qa, nway, pb, qb, nz, pc, qc, rfl, h1, hT1, ?_,
              h2, hT2, ?_, h3, h4, ?_⟩
            · have hl := readTags_length file npoi pa
              rw [hT1] at hl
              exact hl
            · have hl := readTags_length file nway pb
              rw [hT2] at hl
              exact hl
            · exact readZooms_length file nz pc zs qc h4

/-- Witness for C8 on the round-trip sample buffer. -/
theorem claim_C8_witness :
    ∃ hp npoi pa qa nway pb qb nz pc qc,
      parseHeader sampleBuf 0 = .ok hp ∧
      read_fixed sampleBuf hp 2 = .ok (npoi, pa) ∧
      readTags sampleBuf npoi pa = (["amenity=restaurant", "shop=bakery"], qa) ∧
      (["amenity=restaurant", "shop=bakery"] : List String).length = npoi ∧
      read_fixed sampleBuf qa 2 = .ok (nway, pb) ∧
      readTags sampleBuf nway pb = (["highway=primary"], qb) ∧
      (["highway=primary"] : List String).length = nway ∧
      read_fixed sampleBuf qb 1 = .ok (nz, pc) ∧
      readZooms sampleBuf nz pc = .ok ([⟨14, 8, 17, 1000, 5000⟩], qc) ∧
      ([(⟨14, 8, 17, 1000, 5000⟩ : ZoomInterval)]).length = nz :=
  claim_C8_lengths_match_counts sampleBuf
    ⟨["amenity=restaurant", "shop=bakery"], ["highway=primary"],
      [⟨14, 8, 17, 1000, 5000⟩]⟩ (by rfl)

end MapReader
